import Mathlib

/-
Verification development for the Ninja-manifest generator of kati
(src/ninja.cc).  The C++ sources are shallowly embedded: raw byte strings
become `List Char`, the shared scratch buffer `cmd_buf_` becomes an explicit
buffer value threaded through the functions, `fprintf` emission becomes a
list of structured manifest lines, and aborting paths (failed `CHECK`s,
out-of-range buffer reads, which are undefined behaviour in the C++ source)
become `none` of an `Option` result.
-/

namespace Kati

/-- C `isspace` on the ASCII range: space, tab, newline, vertical tab,
form feed, carriage return. -/
def isSpaceC (c : Char) : Bool :=
  c = ' ' || c = '\t' || c = '\n' || c = '\x0b' || c = '\x0c' || c = '\r'

/-- The single-quote character (written via its code point to keep the
source free of quote literals). -/
def chSQ : Char := Char.ofNat 39

/-- The double-quote character. -/
def chDQ : Char := Char.ofNat 34

/-- The backquote character. -/
def chBQ : Char := Char.ofNat 96

/-- `std::string::find` / `StringPiece::find` of a pattern: index of the
first occurrence of `pat` as a contiguous substring, `none` for `npos`. -/
def findSub : List Char → List Char → Option Nat
  | [], pat => if pat.isEmpty then some 0 else none
  | c :: rest, pat =>
    if pat.isPrefixOf (c :: rest) then some 0
    else (findSub rest pat).map (· + 1)

/-- `find(' ')` on a string: index of the first occurrence of a character. -/
def findChar (ch : Char) : List Char → Option Nat
  | [] => none
  | c :: rest => if c = ch then some 0 else (findChar ch rest).map (· + 1)

/-- `rfind` of a character: index of the last occurrence. -/
def rfindChar (ch : Char) (l : List Char) : Option Nat :=
  (findChar ch l.reverse).map (fun i => l.length - 1 - i)

/-- Modelled from the spec: `TrimLeftSpace` of strutil (the file
strutil.cc is not part of the sources); removes leading whitespace,
matching the spec's description of the scanner skipping whitespace
between a flag and its argument. -/
def trimLeft (l : List Char) : List Char := l.dropWhile isSpaceC

/-- Modelled from the spec: `StripExt` of strutil (not in the sources);
"the `-o` argument with its extension stripped" — drop the last
`.`-separated extension, identity when there is no dot. -/
def stripExt (l : List Char) : List Char :=
  match rfindChar '.' l with
  | none => l
  | some i => l.take i

/-- Modelled from the spec: `Basename` of strutil (not in the sources);
"`/<basename-without-ext>.s`" — the part after the last slash,
the whole string when there is no slash. -/
def basename (l : List Char) : List Char :=
  match rfindChar '/' l with
  | none => l
  | some i => l.drop (i + 1)

/-- The re-search loop of `FindCommandLineFlagWithArg` (src/ninja.cc:44-52):
while the flag token is found again in the remainder, skip past it and trim
leading whitespace; at the end return the text up to the next space, where
a missing space fails the `CHECK` (modelled as `none`).  The loop is given
fuel; each iteration shortens `val` by at least one character, so fuel
`val.length + 1` never runs out (`ffwaLoopN_fuel`). -/
def ffwaLoopN (f : Char) (fs : List Char) : Nat → List Char → Option (List Char)
  | 0, _ => none
  | n + 1, val =>
    match findSub val (f :: fs) with
    | some j => ffwaLoopN f fs n (trimLeft (val.drop (j + (f :: fs).length)))
    | none =>
      match findChar ' ' val with
      | none => none
      | some k => some (val.take k)

/-- `FindCommandLineFlagWithArg` (src/ninja.cc:37-53).  Returns `some []`
when the flag does not occur (the empty `StringPiece`), `none` when the
`CHECK` for a terminating space fails.  The flag tokens used by the
program (" -MF ", " -o ") are never empty; an empty flag would make the
C++ loop spin forever, and the unreachable `[]` case returns `some []`. -/
def findFlagWithArg (cmd flag : List Char) : Option (List Char) :=
  match flag with
  | [] => some []
  | f :: fs =>
    match findSub cmd (f :: fs) with
    | none => some []
    | some i => ffwaLoopN f fs (cmd.length + 1) (trimLeft (cmd.drop (i + (f :: fs).length)))

/-- `StripPrefix` (src/ninja.cc:55-60) as an Option-returning helper. -/
def dropPrefixC (p l : List Char) : Option (List Char) :=
  if p.isPrefixOf l then some (l.drop p.length) else none

/-- `IsAndroidCompileCommand` (src/ninja.cc:62-79). -/
def isAndroidCompileCommand (cmd : List Char) : Bool :=
  match dropPrefixC ("prebuilts/".toList) cmd with
  | none => false
  | some c1 =>
    match (dropPrefixC ("gcc/".toList) c1).orElse (fun _ => dropPrefixC ("clang/".toList) c1) with
    | none => false
    | some c2 =>
      match findChar ' ' c2 with
      | none => false
      | some i =>
        let cc := c2.take i
        if ("gcc".toList.isSuffixOf cc || "g++".toList.isSuffixOf cc
            || "clang".toList.isSuffixOf cc || "clang++".toList.isSuffixOf cc) then
          (findSub (c2.drop i) (" -c ".toList)).isSome
        else false

/-- `GetDepfileFromCommandImpl` (src/ninja.cc:81-102).  Outer `none` is an
aborted `CHECK` inside the flag scanner; `some none` is "no depfile"
(`return false`, which on the missing `-o` path follows an `ERROR` log);
`some (some d)` is an inferred depfile. -/
def getDepfileFromCommandImpl (cmd : List Char) : Option (Option (List Char)) :=
  if findSub cmd (" -MD ".toList) = none ∧ findSub cmd (" -MMD ".toList) = none then
    some none
  else
    match findFlagWithArg cmd (" -MF ".toList) with
    | none => none
    | some mf =>
      if mf.isEmpty then
        match findFlagWithArg cmd (" -o ".toList) with
        | none => none
        | some o =>
          if o.isEmpty then some none
          else some (some (stripExt o ++ ".d".toList))
      else some (some mf)

/-- `GetDepfileFromCommand` (src/ninja.cc:104-136): the `CHECK` for a
trailing space (`none` when violated), then the Android-specific
post-filters over the result of `GetDepfileFromCommandImpl`. -/
def getDepfileFromCommand (cmd : List Char) : Option (Option (List Char)) :=
  if cmd.getLast? = some ' ' then
    match getDepfileFromCommandImpl cmd with
    | none => none
    | some none => some none
    | some (some d0) =>
      if (findSub cmd ("bin/llvm-rs-cc ".toList)).isSome then some none
      else
        let p := stripExt d0 ++ ".P".toList
        if (findSub cmd p).isSome then some (some p)
        else
          let a := '/' :: (stripExt (basename d0) ++ ".s".toList)
          if (findSub cmd a).isSome then some none
          else some (some d0)
  else none

/-- The character scan of `NinjaGenerator::TranslateCommand`
(src/ninja.cc:164-214): state is `pb` (`prev_backslash`), `q` (the open
quote, `none` for the C++ `quote == 0`), and the buffer being appended to.
The `#` case falls through to the quote case when inside a quote or after
a backslash, exactly as in the C++ `switch`; the quote and `$` cases do
not reset `prev_backslash` (also as in the source).  On `\n` after a
backslash the last buffer character is overwritten with a space. -/
def scanLoop : Bool → Option Char → List Char → List Char → List Char
  | _, _, buf, [] => buf
  | pb, q, buf, c :: rest =>
    if c = '#' ∧ q = none ∧ pb = false then buf
    else if c = '#' ∨ c = chSQ ∨ c = chDQ ∨ c = chBQ then
      let q' := match q with
                | some qc => if qc = c then none else some qc
                | none => if pb then none else some c
      scanLoop pb q' (buf ++ [c]) rest
    else if c = '$' then scanLoop pb q (buf ++ ['$', '$']) rest
    else if c = '\t' then scanLoop pb q (buf ++ [' ']) rest
    else if c = '\n' then
      if pb then scanLoop pb q (buf.dropLast ++ [' ']) rest
      else scanLoop pb q (buf ++ [' ']) rest
    else if c = '\\' then scanLoop (!pb) q (buf ++ ['\\']) rest
    else scanLoop false q (buf ++ [c]) rest

/-- The scan run on an empty buffer: the characters a recipe emits. -/
def scanEmit (l : List Char) : List Char := scanLoop false none [] l

/-- A character removed by the trailing-strip loop of `TranslateCommand`:
whitespace or `;` (src/ninja.cc:216-221). -/
def strippable (c : Char) : Bool := isSpaceC c || c = ';'

/-- The strip loop viewed from the back of the buffer: it reads the last
character first, so an empty buffer is an out-of-range read (`none`,
undefined behaviour in the C++ source). -/
def stripLoopRev : List Char → Option (List Char)
  | [] => none
  | c :: rest => if strippable c then stripLoopRev rest else some (c :: rest)

/-- The trailing-strip loop of `TranslateCommand` (src/ninja.cc:216-221):
repeatedly remove the last character while it is whitespace or `;`;
reading the last character of an empty buffer is out of range (`none`). -/
def stripLoop (l : List Char) : Option (List Char) :=
  (stripLoopRev l.reverse).map List.reverse

/-- Specification-style right strip: drop the maximal strippable suffix. -/
def rstripSpec (l : List Char) : List Char :=
  (l.reverse.dropWhile strippable).reverse

/-- `NinjaGenerator::TranslateCommand` (src/ninja.cc:164-225) acting on a
buffer `buf` (the contents of `cmd_buf_` on entry, whose length is
`orig_size`): run the scan, run the strip loop, and return the new buffer
together with the returned slice `cmd_buf_[orig_size..]`.  `none` models
the out-of-range read of the strip loop on an empty buffer and the
ill-formed slice produced when the strip loop shrinks the buffer below
`orig_size` (a `size_t` underflow in the C++ source). -/
def translateCommand (buf inp : List Char) : Option (List Char × List Char) :=
  match stripLoop (scanLoop false none buf inp) with
  | none => none
  | some b => if b.length < buf.length then none else some (b, b.drop buf.length)

/-- A `Command` produced by the evaluator (command.h): the evaluated
recipe line and Make's `-` ignore-error flag. -/
structure Command where
  cmd : List Char
  ignore_error : Bool
deriving DecidableEq

/-- The loop body of `NinjaGenerator::GenShellScript`
(src/ninja.cc:227-270).  `goma` is `g_goma_dir` (with the directory
characters), `total` is `commands.size()` (fixed across the loop, used by
`needs_subshell`), `buf` is `cmd_buf_`, `shouldIgnore` is
`should_ignore_error` and `ug` is `use_gomacc`.  `c == commands.back()`
is a pointer comparison in C++, true exactly at the final iteration. -/
def gssLoop (goma : Option (List Char)) (total : Nat) :
    List Char → Bool → Bool → List Command → Option (List Char × Bool)
  | buf, _, ug, [] => some (buf, ug)
  | buf, shouldIgnore, ug, c :: rest =>
    let buf1 := if buf.isEmpty then buf
      else buf ++ (if shouldIgnore then " ; ".toList else " && ".toList)
    let inp := c.cmd.dropWhile isSpaceC
    let needsSub := if inp.head? = some '(' then false else decide (total > 1)
    let buf2 := if needsSub then buf1 ++ ['('] else buf1
    match translateCommand buf2 inp with
    | none => none
    | some (buf4, translated) =>
      let st5 : List Char × Bool :=
        if translated.isEmpty then (buf4 ++ "true".toList, ug)
        else match goma with
          | some dir =>
            if isAndroidCompileCommand translated then
              (buf4.take buf2.length ++ (dir ++ "/gomacc ".toList) ++ buf4.drop buf2.length, true)
            else (buf4, ug)
          | none => (buf4, ug)
      let buf6 := if rest.isEmpty && c.ignore_error then st5.1 ++ " ; true".toList else st5.1
      let buf7 := if needsSub then buf6 ++ [')'] else buf6
      gssLoop goma total buf7 c.ignore_error st5.2 rest

/-- `NinjaGenerator::GenShellScript` (src/ninja.cc:227-270): clear the
buffer, run the loop, and return the composed command together with the
C++ return value `g_goma_dir && !use_gomacc` ("local pool needed"). -/
def genShellScript (goma : Option (List Char)) (cmds : List Command) :
    Option (List Char × Bool) :=
  (gssLoop goma cmds.length [] false false cmds).map
    (fun r => (r.1, goma.isSome && !r.2))

/-- One line of the generated Ninja manifest, in the structured form the
`fprintf` calls of src/ninja.cc produce: `rspfile` stands for
" rspfile = $out.rsp", `commandSh` for " command = sh $out.rsp",
`build o r ds os` for "build o: r ds... || os...". -/
inductive NLine : Type where
  | ruleDecl (name : String)
  | description
  | depfile (path : List Char)
  | rspfile
  | rspfileContent (content : List Char)
  | commandSh
  | command (content : List Char)
  | build (output : String) (ruleName : String) (deps : List String) (orderOnlys : List String)
  | pool
deriving DecidableEq

/-- The response-file branch of `NinjaGenerator::EmitNode`
(src/ninja.cc:305-313): over 100 * 1000 bytes the command goes into a
response file, otherwise it is emitted inline. -/
def emitCommandLines (buf : List Char) : List NLine :=
  if buf.length > 100 * 1000 then
    [NLine.rspfile, NLine.rspfileContent buf, NLine.commandSh]
  else [NLine.command buf]

/-- A `DepNode` of dep.h as far as src/ninja.cc reads it: the output
symbol, whether the unevaluated recipe list `cmds` is non-empty, the
regular and order-only dependencies, and the phony flag. -/
inductive DepNode : Type where
  | mk (output : String) (hasCmds : Bool) (deps : List DepNode)
       (orderOnlys : List DepNode) (isPhony : Bool)

def DepNode.output : DepNode → String
  | .mk o _ _ _ _ => o

def DepNode.hasCmds : DepNode → Bool
  | .mk _ hc _ _ _ => hc

def DepNode.deps : DepNode → List DepNode
  | .mk _ _ d _ _ => d

def DepNode.orderOnlys : DepNode → List DepNode
  | .mk _ _ _ oo _ => oo

def DepNode.isPhony : DepNode → Bool
  | .mk _ _ _ _ p => p

/-- The generator state of src/ninja.cc threaded through `EmitNode`:
the `done_` set, the `rule_id_` counter and the manifest lines written so
far (`fprintf` to `fp_`). -/
structure GenState where
  done : List String
  ruleId : Nat
  lines : List NLine
deriving DecidableEq

/-- The rule-stanza part of `NinjaGenerator::EmitNode`
(src/ninja.cc:295-314): for a non-empty command list, mint `rule<N>`,
emit the rule header, compose the shell script, emit the depfile line
(`EmitDepfile`, src/ninja.cc:272-280, which presents the buffer with a
trailing space) and the command lines.  Returns the emitted lines, the
rule name and the "local pool" flag; `none` is an aborted run. -/
def nodeRuleLines (goma : Option (List Char)) (commands : List Command)
    (ruleId : Nat) : Option (List NLine × String × Bool) :=
  if commands.isEmpty then some ([], "phony", false)
  else
    let ruleName := "rule" ++ toString ruleId
    match genShellScript goma commands with
    | none => none
    | some (buf, pool) =>
      match getDepfileFromCommand (buf ++ [' ']) with
      | none => none
      | some dep =>
        some ([NLine.ruleDecl ruleName, NLine.description]
                ++ (match dep with
                    | none => []
                    | some d => [NLine.depfile d])
                ++ emitCommandLines buf,
              ruleName, pool)

mutual

/-- `NinjaGenerator::EmitNode` (src/ninja.cc:282-326): insert the output
into `done_` (returning unchanged when already present), return for dead
leaves, emit the rule stanza and the `build` line (`EmitBuild`,
src/ninja.cc:328-341) with the optional `pool = local_pool` attribute,
then recurse into the dependencies and the order-only dependencies.
`ev` is the command evaluator keyed by the output symbol. -/
def emitNode (ev : String → List Command) (goma : Option (List Char))
    (st : GenState) : DepNode → Option GenState
  | DepNode.mk o hc deps oo ph =>
    if o ∈ st.done then some st
    else
      let st1 : GenState := ⟨o :: st.done, st.ruleId, st.lines⟩
      if hc = false ∧ deps.isEmpty ∧ oo.isEmpty ∧ ph = false then some st1
      else
        let commands := ev o
        match nodeRuleLines goma commands st1.ruleId with
        | none => none
        | some (rl, ruleName, pool) =>
          let newId := if commands.isEmpty then st1.ruleId else st1.ruleId + 1
          let bl := NLine.build o ruleName (deps.map DepNode.output)
                      (oo.map DepNode.output)
          let st2 : GenState :=
            ⟨st1.done, newId,
             st1.lines ++ rl ++ [bl] ++ (if pool then [NLine.pool] else [])⟩
          match emitNodes ev goma st2 deps with
          | none => none
          | some st3 => emitNodes ev goma st3 oo

/-- The sequential walk `for (DepNode* d : ...) EmitNode(d)` over a list
of nodes, threading the generator state. -/
def emitNodes (ev : String → List Command) (goma : Option (List Char))
    (st : GenState) : List DepNode → Option GenState
  | [] => some st
  | n :: rest =>
    match emitNode ev goma st n with
    | none => none
    | some st2 => emitNodes ev goma st2 rest

end

/-- `build <output>:` lines for a given output in a manifest. -/
def isBuildFor (o : String) : NLine → Bool
  | NLine.build o2 _ _ _ => o2 = o
  | _ => false

/-- Number of `build` stanzas for output `o` among the emitted lines. -/
def buildCount (o : String) (ls : List NLine) : Nat := ls.countP (isBuildFor o)

/-- The dedup invariant of the generator state: an output has a `build`
stanza only once it is in `done_`, and never more than one. -/
def DedupInv (st : GenState) : Prop :=
  ∀ o, buildCount o st.lines ≤ (if o ∈ st.done then 1 else 0)

/-- Spec-side definition, following the words of the claim about the
command-line scanner: the index of the textually last occurrence of the
flag in the command. -/
def lastOccurrence (l pat : List Char) : Option Nat :=
  ((List.range (l.length + 1)).filter (fun i => pat.isPrefixOf (l.drop i))).getLast?

/-- Spec-side definition, following the words of the claim about the
command-line scanner: "the argument (the text up to the next space) that
follows the last occurrence of the flag", empty when the flag is absent. -/
def specLastFlagArg (cmd flag : List Char) : List Char :=
  match lastOccurrence cmd flag with
  | none => []
  | some i => (cmd.drop (i + flag.length)).takeWhile (fun c => c ≠ ' ')

/-- The slice `TranslateCommand` appends for one recipe as composed by
`GenShellScript`: the stripped scan output, or `true` when it is empty. -/
def translatedPiece (inp : List Char) : List Char :=
  if (rstripSpec (scanEmit inp)).isEmpty then "true".toList
  else rstripSpec (scanEmit inp)

/-- The per-character output of the translate scan when no comment stop
and no newline rewrite can fire: `$` doubles, tab becomes space,
everything else is copied. -/
def escChar (c : Char) : List Char :=
  if c = '$' then ['$', '$'] else if c = '\t' then [' '] else [c]

/-- Parity automaton for maximal `$` runs: `pending` is true inside an
odd-length run.  `dreAux false l = true` says every maximal run of `$`
in `l` has even length, i.e. every `$` pairs up into `$$`. -/
def dreAux : Bool → List Char → Bool
  | pending, [] => !pending
  | pending, c :: rest =>
    if c = '$' then dreAux (!pending) rest else (!pending && dreAux false rest)

/-- `escChar` applied across a whole input. -/
def escAll : List Char → List Char
  | [] => []
  | c :: rest => escChar c ++ escAll rest

theorem dropWhile_append_split (p : Char → Bool) (a b : List Char) :
    List.dropWhile p (a ++ b) =
      if List.dropWhile p a = [] then List.dropWhile p b
      else List.dropWhile p a ++ b := by
  induction a with
  | nil => simp
  | cons c rest ih =>
    by_cases h : p c = true
    · simp [List.dropWhile_cons, h, ih]
    · have hf : p c = false := by simpa using h
      simp [List.dropWhile_cons, hf]

theorem dropWhile_append_guard (p : Char → Bool) (x y : List Char) (g : Char)
    (hg : p g = false) :
    List.dropWhile p (x ++ g :: y) = List.dropWhile p x ++ g :: y := by
  rw [dropWhile_append_split]
  by_cases he : List.dropWhile p x = []
  · rw [if_pos he, he, List.dropWhile_cons, if_neg (by simp [hg]), List.nil_append]
  · rw [if_neg he]

theorem stripLoopRev_eq (l : List Char) :
    stripLoopRev l =
      if l.dropWhile strippable = [] then none
      else some (l.dropWhile strippable) := by
  induction l with
  | nil => simp [stripLoopRev]
  | cons c rest ih =>
    by_cases h : strippable c = true
    · simp [stripLoopRev, List.dropWhile_cons, h, ih]
    · have hf : strippable c = false := by simpa using h
      simp [stripLoopRev, List.dropWhile_cons, hf]

theorem rstripSpec_eq_nil_iff (l : List Char) :
    rstripSpec l = [] ↔ l.reverse.dropWhile strippable = [] := by
  constructor
  · intro h
    have := congrArg List.reverse h
    simpa [rstripSpec] using this
  · intro h
    simp [rstripSpec, h]

theorem stripLoop_eq (l : List Char) :
    stripLoop l =
      if rstripSpec l = [] then none else some (rstripSpec l) := by
  rw [stripLoop, stripLoopRev_eq]
  by_cases he : l.reverse.dropWhile strippable = []
  · rw [if_pos he, if_pos ((rstripSpec_eq_nil_iff l).2 he)]
    rfl
  · rw [if_neg he, if_neg (fun h => he ((rstripSpec_eq_nil_iff l).1 h))]
    rfl

theorem rstripSpec_decomp (l : List Char) :
    l = rstripSpec l ++ (l.reverse.takeWhile strippable).reverse := by
  conv_lhs => rw [← List.reverse_reverse l,
    ← List.takeWhile_append_dropWhile strippable l.reverse, List.reverse_append]
  rfl

theorem stripLoop_guard (a b : List Char) (g : Char) (hg : strippable g = false) :
    stripLoop (a ++ g :: b) = some (a ++ g :: rstripSpec b) := by
  have hrev : (a ++ g :: b).reverse = b.reverse ++ g :: a.reverse := by
    simp
  rw [stripLoop, hrev, stripLoopRev_eq, dropWhile_append_guard _ _ _ _ hg,
    if_neg (by simp)]
  simp [rstripSpec, List.reverse_append]

theorem scanLoop_append (l : List Char) : ∀ (pb : Bool) (q : Option Char)
    (a b : List Char), (pb = true → b ≠ []) →
    scanLoop pb q (a ++ b) l = a ++ scanLoop pb q b l := by
  induction l with
  | nil => intro pb q a b _; simp [scanLoop]
  | cons c rest ih =>
    intro pb q a b hb
    by_cases h1 : c = '#' ∧ q = none ∧ pb = false
    · simp [scanLoop, h1]
    · by_cases h2 : c = '#' ∨ c = chSQ ∨ c = chDQ ∨ c = chBQ
      · simp only [scanLoop, if_neg h1, if_pos h2]
        rw [List.append_assoc]
        exact ih pb _ a (b ++ [c]) (by intro _; simp)
      · by_cases h3 : c = '$'
        · simp only [scanLoop, if_neg h1, if_neg h2, if_pos h3]
          rw [List.append_assoc]
          exact ih pb q a (b ++ ['$', '$']) (by intro _; simp)
        · by_cases h4 : c = '\t'
          · simp only [scanLoop, if_neg h1, if_neg h2, if_neg h3, if_pos h4]
            rw [List.append_assoc]
            exact ih pb q a (b ++ [' ']) (by intro _; simp)
          · by_cases h5 : c = '\n'
            · simp only [scanLoop, if_neg h1, if_neg h2, if_neg h3, if_neg h4, if_pos h5]
              by_cases hpb : pb = true
              · have hbne : b ≠ [] := hb hpb
                simp only [if_pos hpb]
                rw [List.dropLast_append_of_ne_nil a hbne, List.append_assoc]
                exact ih pb q a (b.dropLast ++ [' ']) (by intro _; simp)
              · simp only [if_neg hpb]
                rw [List.append_assoc]
                exact ih pb q a (b ++ [' ']) (by intro _; simp)
            · by_cases h6 : c = '\\'
              · simp only [scanLoop, if_neg h1, if_neg h2, if_neg h3, if_neg h4, if_neg h5,
                  if_pos h6]
                rw [List.append_assoc]
                exact ih (!pb) q a (b ++ ['\\']) (by intro _; simp)
              · simp only [scanLoop, if_neg h1, if_neg h2, if_neg h3, if_neg h4, if_neg h5,
                  if_neg h6]
                rw [List.append_assoc]
                exact ih false q a (b ++ [c]) (by intro h; cases h)

theorem scanLoop_emit (q : Option Char) (buf l : List Char) :
    scanLoop false q buf l = buf ++ scanLoop false q [] l := by
  have := scanLoop_append l false q buf [] (by intro h; cases h)
  simpa using this

theorem scanLoop_escAll (l : List Char) (h1 : '#' ∉ l) (h2 : '\n' ∉ l) :
    ∀ (pb : Bool) (q : Option Char) (buf : List Char),
    scanLoop pb q buf l = buf ++ escAll l := by
  induction l with
  | nil => intro pb q buf; simp [scanLoop, escAll]
  | cons c rest ih =>
    intro pb q buf
    have hc1 : c ≠ '#' := by intro h; exact h1 (h ▸ List.mem_cons_self c rest)
    have hc5 : c ≠ '\n' := by intro h; exact h2 (h ▸ List.mem_cons_self c rest)
    have hr1 : '#' ∉ rest := fun h => h1 (List.mem_cons_of_mem c h)
    have hr2 : '\n' ∉ rest := fun h => h2 (List.mem_cons_of_mem c h)
    have ihh := ih hr1 hr2
    have hn1 : ¬ (c = '#' ∧ q = none ∧ pb = false) := fun h => hc1 h.1
    by_cases h2' : c = '#' ∨ c = chSQ ∨ c = chDQ ∨ c = chBQ
    · have hesc : escChar c = [c] := by
        rcases h2' with h | h | h | h
        · exact absurd h hc1
        all_goals (rw [h]; decide)
      simp only [scanLoop, if_neg hn1, if_pos h2']
      calc scanLoop pb _ (buf ++ [c]) rest = (buf ++ [c]) ++ escAll rest := ihh _ _ _
        _ = buf ++ (escChar c ++ escAll rest) := by rw [hesc, List.append_assoc]
        _ = buf ++ escAll (c :: rest) := rfl
    · by_cases h3 : c = '$'
      · simp only [scanLoop, if_neg hn1, if_neg h2', if_pos h3]
        calc scanLoop pb q (buf ++ ['$', '$']) rest
            = (buf ++ ['$', '$']) ++ escAll rest := ihh _ _ _
          _ = buf ++ (escChar c ++ escAll rest) := by
              rw [escChar, if_pos h3, List.append_assoc]
          _ = buf ++ escAll (c :: rest) := rfl
      · by_cases h4 : c = '\t'
        · simp only [scanLoop, if_neg hn1, if_neg h2', if_neg h3, if_pos h4]
          calc scanLoop pb q (buf ++ [' ']) rest
              = (buf ++ [' ']) ++ escAll rest := ihh _ _ _
            _ = buf ++ (escChar c ++ escAll rest) := by
                rw [escChar, if_neg h3, if_pos h4, List.append_assoc]
            _ = buf ++ escAll (c :: rest) := rfl
        · by_cases h6 : c = '\\'
          · simp only [scanLoop, if_neg hn1, if_neg h2', if_neg h3, if_neg h4,
              if_neg hc5, if_pos h6]
            calc scanLoop (!pb) q (buf ++ ['\\']) rest
                = (buf ++ ['\\']) ++ escAll rest := ihh _ _ _
              _ = buf ++ (escChar c ++ escAll rest) := by
                  rw [escChar, if_neg h3, if_neg h4, h6, List.append_assoc]
              _ = buf ++ escAll (c :: rest) := rfl
          · simp only [scanLoop, if_neg hn1, if_neg h2', if_neg h3, if_neg h4,
              if_neg hc5, if_neg h6]
            calc scanLoop false q (buf ++ [c]) rest
                = (buf ++ [c]) ++ escAll rest := ihh _ _ _
              _ = buf ++ (escChar c ++ escAll rest) := by
                  rw [escChar, if_neg h3, if_neg h4, List.append_assoc]
              _ = buf ++ escAll (c :: rest) := rfl

theorem escAll_id (l : List Char) (h3 : '$' ∉ l) (h4 : '\t' ∉ l) : escAll l = l := by
  induction l with
  | nil => rfl
  | cons c rest ih =>
    have hc3 : c ≠ '$' := by intro h; exact h3 (h ▸ List.mem_cons_self c rest)
    have hc4 : c ≠ '\t' := by intro h; exact h4 (h ▸ List.mem_cons_self c rest)
    rw [escAll, escChar, if_neg hc3, if_neg hc4,
      ih (fun h => h3 (List.mem_cons_of_mem c h)) (fun h => h4 (List.mem_cons_of_mem c h))]
    rfl

theorem dre_pending_false (b : List Char) (hb : ∀ c ∈ b, c ≠ '$') :
    ∀ pending, dreAux pending b = true → pending = false := by
  induction b with
  | nil => intro pending h2; simpa [dreAux] using h2
  | cons c rest ih =>
    intro pending h2
    rw [dreAux, if_neg (hb c (List.mem_cons_self c rest))] at h2
    simp only [Bool.and_eq_true, Bool.not_eq_true'] at h2
    exact h2.1

theorem dre_append (a b : List Char) :
    ∀ pending, dreAux pending a = true → dreAux false b = true →
    dreAux pending (a ++ b) = true := by
  induction a with
  | nil =>
    intro pending ha hb
    have hp : pending = false := by simpa [dreAux] using ha
    simpa [hp] using hb
  | cons c rest ih =>
    intro pending ha hb
    by_cases hc : c = '$'
    · rw [List.cons_append, dreAux, if_pos hc]
      rw [dreAux, if_pos hc] at ha
      exact ih _ ha hb
    · rw [List.cons_append, dreAux, if_neg hc]
      rw [dreAux, if_neg hc] at ha
      simp only [Bool.and_eq_true] at ha ⊢
      exact ⟨ha.1, ih false ha.2 hb⟩

theorem dre_prefix (a b : List Char) :
    ∀ pending, dreAux pending (a ++ b) = true → (∀ c ∈ b, c ≠ '$') →
    dreAux pending a = true := by
  induction a with
  | nil =>
    intro pending h hb
    have hp : pending = false := dre_pending_false b hb pending (by simpa using h)
    simp [dreAux, hp]
  | cons c rest ih =>
    intro pending h hb
    by_cases hc : c = '$'
    · rw [List.cons_append, dreAux, if_pos hc] at h
      rw [dreAux, if_pos hc]
      exact ih _ h hb
    · rw [List.cons_append, dreAux, if_neg hc] at h
      rw [dreAux, if_neg hc]
      simp only [Bool.and_eq_true] at h ⊢
      exact ⟨h.1, ih false h.2 hb⟩

theorem dre_escChar (c : Char) (xs : List Char) (h : dreAux false xs = true) :
    dreAux false (escChar c ++ xs) = true := by
  by_cases h3 : c = '$'
  · rw [escChar, if_pos h3]
    show dreAux false ('$' :: '$' :: xs) = true
    rw [dreAux, if_pos rfl, dreAux, if_pos rfl]
    exact h
  · by_cases h4 : c = '\t'
    · rw [escChar, if_neg h3, if_pos h4]
      show dreAux false (' ' :: xs) = true
      rw [dreAux, if_neg (by decide)]
      simpa using h
    · rw [escChar, if_neg h3, if_neg h4]
      show dreAux false (c :: xs) = true
      rw [dreAux, if_neg h3]
      simpa using h

theorem dre_escAll (l : List Char) : dreAux false (escAll l) = true := by
  induction l with
  | nil => rfl
  | cons c rest ih => exact dre_escChar c _ ih

theorem dre_of_no_dollar (l : List Char) (h : ∀ c ∈ l, c ≠ '$') :
    dreAux false l = true := by
  induction l with
  | nil => rfl
  | cons c rest ih =>
    rw [dreAux, if_neg (h c (List.mem_cons_self c rest))]
    simpa using ih (fun d hd => h d (List.mem_cons_of_mem c hd))

theorem mem_rstrip_removed_strippable (l : List Char) :
    ∀ c ∈ (l.reverse.takeWhile strippable).reverse, c ≠ '$' := by
  intro c hc
  have hsc : strippable c = true := List.mem_takeWhile_imp (by simpa using hc)
  intro h'
  subst h'
  exact absurd hsc (by decide)

theorem dre_rstrip (l : List Char) (h : dreAux false l = true) :
    dreAux false (rstripSpec l) = true := by
  have hd := rstripSpec_decomp l
  exact dre_prefix _ _ false (hd ▸ h) (mem_rstrip_removed_strippable l)

theorem count_no_dollar (l : List Char) (h : ∀ c ∈ l, c ≠ '$') :
    l.count '$' = 0 := by
  rw [List.count_eq_zero]
  intro h'
  exact (h _ h') rfl

theorem count_escChar (c : Char) :
    (escChar c).count '$' = if c = '$' then 2 else 0 := by
  by_cases h3 : c = '$'
  · rw [escChar, if_pos h3, if_pos h3]
    decide
  · rw [escChar, if_neg h3, if_neg h3]
    by_cases h4 : c = '\t'
    · rw [if_pos h4]
      decide
    · rw [if_neg h4]
      simp [List.count_cons, h3]

theorem count_escAll (l : List Char) :
    (escAll l).count '$' = 2 * l.count '$' := by
  induction l with
  | nil => rfl
  | cons c rest ih =>
    have he : escAll (c :: rest) = escChar c ++ escAll rest := rfl
    rw [he, List.count_append, count_escChar, ih, List.count_cons]
    by_cases hc : c = '$'
    · rw [if_pos hc]
      have hb : (c == '$') = true := by simpa using hc
      rw [hb, if_pos rfl]
      omega
    · rw [if_neg hc]
      have hb : (c == '$') = false := by simpa using hc
      rw [hb]
      simp only [Bool.false_eq_true, if_false]
      omega

theorem count_rstrip (l : List Char) : (rstripSpec l).count '$' = l.count '$' := by
  conv_rhs => rw [rstripSpec_decomp l]
  rw [List.count_append, count_no_dollar _ (mem_rstrip_removed_strippable l), Nat.add_zero]

theorem count_trimSpace (l : List Char) :
    (l.dropWhile isSpaceC).count '$' = l.count '$' := by
  conv_rhs => rw [← List.takeWhile_append_dropWhile isSpaceC l]
  rw [List.count_append, count_no_dollar (l.takeWhile isSpaceC) ?h, Nat.zero_add]
  case h =>
    intro c hc
    have hsc : isSpaceC c = true := List.mem_takeWhile_imp hc
    intro h'
    subst h'
    exact absurd hsc (by decide)

theorem head_dropWhile_not (p : Char → Bool) (l : List Char) :
    ∀ c, (l.dropWhile p).head? = some c → p c = false := by
  induction l with
  | nil => intro c h; cases h
  | cons d rest ih =>
    intro c h
    by_cases hd : p d = true
    · rw [List.dropWhile_cons, if_pos hd] at h
      exact ih c h
    · rw [List.dropWhile_cons, if_neg hd] at h
      have hdc : d = c := by simpa using h
      subst hdc
      simpa using hd

theorem findChar_zero (ch c : Char) (rest : List Char)
    (h : findChar ch (c :: rest) = some 0) : c = ch := by
  by_cases hc : c = ch
  · exact hc
  · rw [findChar, if_neg hc] at h
    cases hfs : findChar ch rest with
    | none => rw [hfs] at h; cases h
    | some n => rw [hfs] at h; simp at h

theorem findSub_le (pat : List Char) (hpat : pat ≠ []) :
    ∀ (l : List Char) (j : Nat), findSub l pat = some j → j + pat.length ≤ l.length := by
  intro l
  induction l with
  | nil =>
    intro j h
    rw [findSub, if_neg (by simpa using hpat)] at h
    cases h
  | cons c rest ih =>
    intro j h
    rw [findSub] at h
    by_cases hp : pat.isPrefixOf (c :: rest)
    · rw [if_pos hp] at h
      have hj : j = 0 := by simpa using h.symm
      subst hj
      have := List.IsPrefix.length_le (List.isPrefixOf_iff_prefix.1 hp)
      simpa using this
    · rw [if_neg hp] at h
      cases hfs : findSub rest pat with
      | none => rw [hfs] at h; cases h
      | some j' =>
        rw [hfs] at h
        have hj : j = j' + 1 := by simpa using h.symm
        subst hj
        have := ih j' hfs
        simp only [List.length_cons]
        omega

theorem ffwa_some_ne_nil (f : Char) (fs : List Char) :
    ∀ (n : Nat) (x mf : List Char),
    ffwaLoopN f fs n (trimLeft x) = some mf → mf ≠ [] := by
  intro n
  induction n with
  | zero => intro x mf h; cases h
  | succ n ih =>
    intro x mf h
    rw [ffwaLoopN] at h
    cases hfs : findSub (trimLeft x) (f :: fs) with
    | some j =>
      rw [hfs] at h
      exact ih _ mf h
    | none =>
      rw [hfs] at h
      cases hfc : findChar ' ' (trimLeft x) with
      | none => rw [hfc] at h; cases h
      | some k =>
        rw [hfc] at h
        have hmf : mf = (trimLeft x).take k := by simpa using h.symm
        cases hl : trimLeft x with
        | nil => rw [hl] at hfc; cases hfc
        | cons c r =>
          have hcs : isSpaceC c = false := by
            apply head_dropWhile_not isSpaceC x
            rw [show x.dropWhile isSpaceC = c :: r from hl]
            rfl
          cases k with
          | zero =>
            have : c = ' ' := findChar_zero ' ' c r (hl ▸ hfc)
            subst this
            exact absurd hcs (by decide)
          | succ k' =>
            rw [hl] at hmf
            subst hmf
            simp

theorem findFlag_present_ne_nil (cmd : List Char) (f : Char) (fs : List Char)
    (hocc : findSub cmd (f :: fs) ≠ none) :
    ∀ mf, findFlagWithArg cmd (f :: fs) = some mf → mf ≠ [] := by
  intro mf h
  rw [findFlagWithArg] at h
  cases hfs : findSub cmd (f :: fs) with
  | none => exact absurd hfs hocc
  | some i =>
    rw [hfs] at h
    exact ffwa_some_ne_nil f fs _ _ mf h

theorem translateCommand_guard (buf1 inp : List Char) :
    translateCommand (buf1 ++ ['(']) inp =
      some (buf1 ++ '(' :: rstripSpec (scanEmit inp), rstripSpec (scanEmit inp)) := by
  have hscan : scanLoop false none (buf1 ++ ['(']) inp
      = buf1 ++ '(' :: scanEmit inp := by
    rw [scanLoop_emit, List.append_assoc]
    rfl
  have hlen : ¬ (buf1 ++ '(' :: rstripSpec (scanEmit inp)).length
      < (buf1 ++ ['(']).length := by
    intro hcon
    simp only [List.length_append, List.length_cons, List.length_nil] at hcon
    omega
  have hdrop : (buf1 ++ '(' :: rstripSpec (scanEmit inp)).drop (buf1 ++ ['(']).length
      = rstripSpec (scanEmit inp) := by
    have h : buf1 ++ '(' :: rstripSpec (scanEmit inp)
        = (buf1 ++ ['(']) ++ rstripSpec (scanEmit inp) := by simp
    rw [h, List.drop_left]
  rw [translateCommand, hscan, stripLoop_guard buf1 _ '(' (by decide)]
  simp only [if_neg hlen, hdrop]

theorem translateCommand_headpar (buf1 tl : List Char) :
    translateCommand buf1 ('(' :: tl) =
      some (buf1 ++ '(' :: rstripSpec (scanEmit tl), '(' :: rstripSpec (scanEmit tl)) := by
  have hstep : scanLoop false none buf1 ('(' :: tl)
      = scanLoop false none (buf1 ++ ['(']) tl := by
    rw [scanLoop, if_neg (by decide), if_neg (by decide), if_neg (by decide),
      if_neg (by decide), if_neg (by decide), if_neg (by decide)]
  have hscan : scanLoop false none buf1 ('(' :: tl) = buf1 ++ '(' :: scanEmit tl := by
    rw [hstep, scanLoop_emit, List.append_assoc]
    rfl
  have hlen : ¬ (buf1 ++ '(' :: rstripSpec (scanEmit tl)).length < buf1.length := by
    intro hcon
    simp only [List.length_append, List.length_cons] at hcon
    omega
  have hdrop : (buf1 ++ '(' :: rstripSpec (scanEmit tl)).drop buf1.length
      = '(' :: rstripSpec (scanEmit tl) := List.drop_left buf1 _
  rw [translateCommand, hscan, stripLoop_guard buf1 _ '(' (by decide)]
  simp only [if_neg hlen, hdrop]

theorem head_eq_par_cons (l : List Char) (h : l.head? = some '(') :
    l = '(' :: l.tail := by
  cases l with
  | nil => cases h
  | cons a tl =>
    have : a = '(' := by simpa using h
    rw [this]
    rfl

theorem gssLoop_cons_sub (goma : Option (List Char)) (total : Nat) (ht : 1 < total)
    (buf : List Char) (si ug : Bool) (c : Command) (rest : List Command)
    (hh : ¬ (c.cmd.dropWhile isSpaceC).head? = some '(')
    (hgoma : goma = none) :
    gssLoop goma total buf si ug (c :: rest) =
      gssLoop goma total
        ((if buf.isEmpty then buf
          else buf ++ (if si then " ; ".toList else " && ".toList))
          ++ '(' :: (translatedPiece (c.cmd.dropWhile isSpaceC)
            ++ (if rest.isEmpty && c.ignore_error then " ; true".toList else [])
            ++ [')']))
        c.ignore_error ug rest := by
  subst hgoma
  have hdec : decide (total > 1) = true := decide_eq_true ht
  simp only [gssLoop, if_neg hh, hdec, eq_self_iff_true, if_true]
  rw [translateCommand_guard]
  by_cases hemp : rstripSpec (scanEmit (c.cmd.dropWhile isSpaceC)) = []
  · by_cases hle : (rest.isEmpty && c.ignore_error) = true
    · simp [translatedPiece, hemp, hle]
    · simp [translatedPiece, hemp, hle]
  · by_cases hle : (rest.isEmpty && c.ignore_error) = true
    · simp [translatedPiece, hemp, hle]
    · simp [translatedPiece, hemp, hle]

theorem gssLoop_cons_par (goma : Option (List Char)) (total : Nat)
    (buf : List Char) (si ug : Bool) (c : Command) (rest : List Command)
    (tl : List Char)
    (hh : c.cmd.dropWhile isSpaceC = '(' :: tl)
    (hgoma : goma = none) :
    gssLoop goma total buf si ug (c :: rest) =
      gssLoop goma total
        ((if buf.isEmpty then buf
          else buf ++ (if si then " ; ".toList else " && ".toList))
          ++ '(' :: (rstripSpec (scanEmit tl)
            ++ (if rest.isEmpty && c.ignore_error then " ; true".toList else [])))
        c.ignore_error ug rest := by
  subst hgoma
  simp only [gssLoop, hh, List.head?_cons, if_pos rfl]
  rw [translateCommand_headpar]
  by_cases hle : (rest.isEmpty && c.ignore_error) = true
  · simp [hle]
  · simp [hle]

theorem gssLoop_cons_step (goma : Option (List Char)) (total : Nat) (ht : 1 < total)
    (buf : List Char) (si ug : Bool) (c : Command) (rest : List Command) :
    ∃ buf' ug', gssLoop goma total buf si ug (c :: rest) =
      gssLoop goma total buf' c.ignore_error ug' rest := by
  by_cases hh : (c.cmd.dropWhile isSpaceC).head? = some '('
  · have hcons := head_eq_par_cons _ hh
    simp only [gssLoop, if_pos hh]
    rw [hcons, translateCommand_headpar]
    exact ⟨_, _, rfl⟩
  · have hdec : decide (total > 1) = true := decide_eq_true ht
    simp only [gssLoop, if_neg hh, hdec, eq_self_iff_true, if_true]
    rw [translateCommand_guard]
    exact ⟨_, _, rfl⟩

theorem gssLoop_ne_none (goma : Option (List Char)) (total : Nat) (ht : 1 < total) :
    ∀ (rest : List Command) (buf : List Char) (si ug : Bool),
    gssLoop goma total buf si ug rest ≠ none := by
  intro rest
  induction rest with
  | nil =>
    intro buf si ug h
    simp [gssLoop] at h
  | cons c rest ih =>
    intro buf si ug h
    obtain ⟨buf', ug', heq⟩ := gssLoop_cons_step goma total ht buf si ug c rest
    rw [heq] at h
    exact ih buf' c.ignore_error ug' h

theorem genShellScript_multi_ne_none (goma : Option (List Char)) (cmds : List Command)
    (h2 : 2 ≤ cmds.length) : genShellScript goma cmds ≠ none := by
  intro h
  rw [genShellScript] at h
  cases hg : gssLoop goma cmds.length [] false false cmds with
  | none => exact gssLoop_ne_none goma cmds.length (by omega) cmds [] false false hg
  | some r => rw [hg] at h; cases h

theorem gssLoop_single (c : Command) :
    gssLoop none 1 [] false false [c] =
      if rstripSpec (scanEmit (c.cmd.dropWhile isSpaceC)) = [] then none
      else some (rstripSpec (scanEmit (c.cmd.dropWhile isSpaceC))
        ++ (if c.ignore_error then " ; true".toList else []), false) := by
  have hd1 : decide (1 > 1) = false := rfl
  have htc : translateCommand [] (c.cmd.dropWhile isSpaceC) =
      match stripLoop (scanEmit (c.cmd.dropWhile isSpaceC)) with
      | none => none
      | some b => some (b, b) := by
    rw [translateCommand,
      show scanLoop false none [] (c.cmd.dropWhile isSpaceC)
        = scanEmit (c.cmd.dropWhile isSpaceC) from rfl]
    cases hs : stripLoop (scanEmit (c.cmd.dropWhile isSpaceC)) with
    | none => rfl
    | some b => simp
  simp only [gssLoop, hd1, ite_self, Bool.false_eq_true, if_false, List.isEmpty_nil,
    eq_self_iff_true, if_true, Bool.true_and]
  by_cases hemp : rstripSpec (scanEmit (c.cmd.dropWhile isSpaceC)) = []
  · rw [htc, stripLoop_eq]
    simp [hemp]
  · rw [htc, stripLoop_eq, if_neg hemp]
    by_cases hig : c.ignore_error = true
    · simp [hemp, hig]
    · simp [hemp, hig]

theorem genShellScript_empty : genShellScript none [] = some ([], false) := rfl

theorem genShellScript_single (c : Command) :
    genShellScript none [c] =
      if rstripSpec (scanEmit (c.cmd.dropWhile isSpaceC)) = [] then none
      else some (rstripSpec (scanEmit (c.cmd.dropWhile isSpaceC))
        ++ (if c.ignore_error then " ; true".toList else []), false) := by
  rw [genShellScript, show ([c] : List Command).length = 1 from rfl, gssLoop_single]
  by_cases hemp : rstripSpec (scanEmit (c.cmd.dropWhile isSpaceC)) = []
  · simp [hemp]
  · simp [hemp]

theorem dre_count_append_nodollar (a s : List Char) (hs : ∀ c ∈ s, c ≠ '$')
    (hd : dreAux false a = true) :
    dreAux false (a ++ s) = true ∧ (a ++ s).count '$' = a.count '$' :=
  ⟨dre_append _ _ _ hd (dre_of_no_dollar s hs),
   by rw [List.count_append, count_no_dollar s hs, Nat.add_zero]⟩

theorem sep_no_dollar (si : Bool) :
    ∀ c ∈ (if si then " ; ".toList else " && ".toList), c ≠ '$' := by
  by_cases h : si = true
  · rw [if_pos h]; decide
  · rw [if_neg h]; decide

theorem truetail_no_dollar (b : Bool) :
    ∀ c ∈ (if b then " ; true".toList else ([] : List Char)), c ≠ '$' := by
  by_cases h : b = true
  · rw [if_pos h]; decide
  · rw [if_neg h]; decide

theorem dre_count_buf1 (buf : List Char) (si : Bool) (hd : dreAux false buf = true) :
    dreAux false (if buf.isEmpty then buf
        else buf ++ (if si then " ; ".toList else " && ".toList)) = true ∧
      (if buf.isEmpty then buf
        else buf ++ (if si then " ; ".toList else " && ".toList)).count '$'
        = buf.count '$' := by
  by_cases he : buf.isEmpty = true
  · simp only [he, if_true]
    exact ⟨hd, by trivial⟩
  · have hf : buf.isEmpty = false := by simpa using he
    simp only [hf, Bool.false_eq_true, if_false]
    exact dre_count_append_nodollar buf _ (sep_no_dollar si) hd

theorem dre_count_paren_piece (t s : List Char) (htd : dreAux false t = true)
    (hs : ∀ c ∈ s, c ≠ '$') :
    dreAux false ('(' :: (t ++ s)) = true ∧
      ('(' :: (t ++ s)).count '$' = t.count '$' := by
  constructor
  · rw [dreAux, if_neg (by decide)]
    simpa using dre_append t s false htd (dre_of_no_dollar s hs)
  · rw [List.count_cons, List.count_append, count_no_dollar s hs,
      show (('(' : Char) == '$') = false from by decide]
    simp

theorem dre_count_whole (buf t s : List Char) (si : Bool)
    (hd : dreAux false buf = true) (htd : dreAux false t = true)
    (hs : ∀ c ∈ s, c ≠ '$') :
    dreAux false ((if buf.isEmpty then buf
        else buf ++ (if si then " ; ".toList else " && ".toList))
        ++ '(' :: (t ++ s)) = true ∧
      ((if buf.isEmpty then buf
        else buf ++ (if si then " ; ".toList else " && ".toList))
        ++ '(' :: (t ++ s)).count '$' = buf.count '$' + t.count '$' := by
  obtain ⟨h1d, h1c⟩ := dre_count_buf1 buf si hd
  obtain ⟨h2d, h2c⟩ := dre_count_paren_piece t s htd hs
  refine ⟨dre_append _ _ false h1d h2d, ?_⟩
  rw [List.count_append, h1c, h2c]

theorem gss_dollar_multi (total : Nat) (ht : 1 < total) :
    ∀ (rest : List Command) (buf : List Char) (si ug : Bool)
      (bufO : List Char) (ugO : Bool),
    (∀ c ∈ rest, '#' ∉ c.cmd ∧ '\n' ∉ c.cmd) →
    gssLoop none total buf si ug rest = some (bufO, ugO) →
    dreAux false buf = true →
    dreAux false bufO = true ∧
      bufO.count '$' = buf.count '$'
        + 2 * (rest.map (fun c => c.cmd.count '$')).sum := by
  intro rest
  induction rest with
  | nil =>
    intro buf si ug bufO ugO _ h hd
    simp only [gssLoop, Option.some.injEq, Prod.mk.injEq] at h
    obtain ⟨hb, _⟩ := h
    subst hb
    exact ⟨hd, by simp⟩
  | cons c rest ih =>
    intro buf si ug bufO ugO hcl h hd
    obtain ⟨hns, hnn⟩ := hcl c (List.mem_cons_self c rest)
    have hrest : ∀ d ∈ rest, '#' ∉ d.cmd ∧ '\n' ∉ d.cmd :=
      fun d hdm => hcl d (List.mem_cons_of_mem c hdm)
    have hsub : ∀ x ∈ c.cmd.dropWhile isSpaceC, x ∈ c.cmd := fun x hx =>
      (List.dropWhile_sublist isSpaceC).subset hx
    have hi1 : '#' ∉ c.cmd.dropWhile isSpaceC := fun hx => hns (hsub _ hx)
    have hi2 : '\n' ∉ c.cmd.dropWhile isSpaceC := fun hx => hnn (hsub _ hx)
    have hE : scanEmit (c.cmd.dropWhile isSpaceC)
        = escAll (c.cmd.dropWhile isSpaceC) := by
      have := scanLoop_escAll _ hi1 hi2 false none []
      simpa [scanEmit] using this
    have hTd : dreAux false (rstripSpec (scanEmit (c.cmd.dropWhile isSpaceC)))
        = true := by
      rw [hE]
      exact dre_rstrip _ (dre_escAll _)
    have hTc : (rstripSpec (scanEmit (c.cmd.dropWhile isSpaceC))).count '$'
        = 2 * c.cmd.count '$' := by
      rw [count_rstrip, hE, count_escAll, count_trimSpace]
    by_cases hh : (c.cmd.dropWhile isSpaceC).head? = some '('
    · have hcons := head_eq_par_cons _ hh
      rw [gssLoop_cons_par none total buf si ug c rest _ hcons rfl] at h
      have hsub2 : ∀ x ∈ (c.cmd.dropWhile isSpaceC).tail,
          x ∈ c.cmd.dropWhile isSpaceC := by
        intro x hx
        rw [hcons]
        exact List.mem_cons_of_mem _ hx
      have hj1 : '#' ∉ (c.cmd.dropWhile isSpaceC).tail := fun hx => hi1 (hsub2 _ hx)
      have hj2 : '\n' ∉ (c.cmd.dropWhile isSpaceC).tail := fun hx => hi2 (hsub2 _ hx)
      have hE2 : scanEmit ((c.cmd.dropWhile isSpaceC).tail)
          = escAll ((c.cmd.dropWhile isSpaceC).tail) := by
        have := scanLoop_escAll _ hj1 hj2 false none []
        simpa [scanEmit] using this
      have hT2d : dreAux false (rstripSpec (scanEmit ((c.cmd.dropWhile isSpaceC).tail)))
          = true := by
        rw [hE2]
        exact dre_rstrip _ (dre_escAll _)
      have htailc : ((c.cmd.dropWhile isSpaceC).tail).count '$'
          = c.cmd.count '$' := by
        have h1 : (c.cmd.dropWhile isSpaceC).count '$' = c.cmd.count '$' :=
          count_trimSpace c.cmd
        rw [← h1]
        conv_rhs => rw [hcons]
        rw [List.count_cons, show (('(' : Char) == '$') = false from by decide]
        simp
      have hT2c : (rstripSpec (scanEmit ((c.cmd.dropWhile isSpaceC).tail))).count '$'
          = 2 * c.cmd.count '$' := by
        rw [count_rstrip, hE2, count_escAll, htailc]
      obtain ⟨hWd, hWc⟩ := dre_count_whole buf
        (rstripSpec (scanEmit ((c.cmd.dropWhile isSpaceC).tail)))
        (if rest.isEmpty && c.ignore_error then " ; true".toList else []) si hd hT2d
        (truetail_no_dollar _)
      obtain ⟨ihd, ihc⟩ := ih _ c.ignore_error ug bufO ugO hrest h hWd
      refine ⟨ihd, ?_⟩
      rw [ihc, hWc, hT2c]
      simp only [List.map_cons, List.sum_cons]
      omega
    · have hstep := gssLoop_cons_sub none total ht buf si ug c rest hh rfl
      rw [hstep] at h
      have hXd : dreAux false (translatedPiece (c.cmd.dropWhile isSpaceC)) = true := by
        rw [translatedPiece]
        by_cases hx : (rstripSpec (scanEmit (c.cmd.dropWhile isSpaceC))).isEmpty = true
        · rw [if_pos hx]
          decide
        · have hxf : (rstripSpec (scanEmit (c.cmd.dropWhile isSpaceC))).isEmpty = false := by
            simpa using hx
          rw [hxf]
          simpa using hTd
      have hXc : (translatedPiece (c.cmd.dropWhile isSpaceC)).count '$'
          = 2 * c.cmd.count '$' := by
        rw [translatedPiece]
        by_cases hx : (rstripSpec (scanEmit (c.cmd.dropWhile isSpaceC))).isEmpty = true
        · rw [if_pos hx]
          have hnil : rstripSpec (scanEmit (c.cmd.dropWhile isSpaceC)) = [] :=
            List.isEmpty_iff.mp hx
          have hz : 2 * c.cmd.count '$' = 0 := by
            rw [← hTc, hnil]
            rfl
          rw [hz]
          decide
        · have hxf : (rstripSpec (scanEmit (c.cmd.dropWhile isSpaceC))).isEmpty = false := by
            simpa using hx
          rw [hxf]
          simpa using hTc
      have hsno : ∀ x ∈ ((if rest.isEmpty && c.ignore_error then " ; true".toList
          else ([] : List Char)) ++ [')']), x ≠ '$' := by
        intro x hx
        rcases List.mem_append.mp hx with hx1 | hx1
        · exact truetail_no_dollar _ x hx1
        · intro he
          subst he
          simp at hx1
      have hassoc : (translatedPiece (c.cmd.dropWhile isSpaceC)
            ++ (if rest.isEmpty && c.ignore_error then " ; true".toList else [])
            ++ [')'])
          = (translatedPiece (c.cmd.dropWhile isSpaceC)
            ++ ((if rest.isEmpty && c.ignore_error then " ; true".toList else [])
              ++ [')'])) := by
        rw [List.append_assoc]
      rw [hassoc] at h
      obtain ⟨hWd, hWc⟩ := dre_count_whole buf
        (translatedPiece (c.cmd.dropWhile isSpaceC))
        ((if rest.isEmpty && c.ignore_error then " ; true".toList else []) ++ [')'])
        si hd hXd hsno
      obtain ⟨ihd, ihc⟩ := ih _ c.ignore_error ug bufO ugO hrest h hWd
      refine ⟨ihd, ?_⟩
      rw [ihc, hWc, hXc]
      simp only [List.map_cons, List.sum_cons]
      omega

theorem genShellScript_dollar (cmds : List Command) (bufO : List Char) (pool : Bool)
    (hcl : ∀ c ∈ cmds, '#' ∉ c.cmd ∧ '\n' ∉ c.cmd)
    (h : genShellScript none cmds = some (bufO, pool)) :
    dreAux false bufO = true ∧
      bufO.count '$' = 2 * (cmds.map (fun c => c.cmd.count '$')).sum := by
  match cmds with
  | [] =>
    rw [genShellScript_empty] at h
    have hb : bufO = [] := by
      have := h.symm
      simp only [Option.some.injEq, Prod.mk.injEq] at this
      exact this.1
    subst hb
    exact ⟨rfl, by simp⟩
  | [c] =>
    obtain ⟨hns, hnn⟩ := hcl c (List.mem_cons_self c [])
    have hsub : ∀ x ∈ c.cmd.dropWhile isSpaceC, x ∈ c.cmd := fun x hx =>
      (List.dropWhile_sublist isSpaceC).subset hx
    have hi1 : '#' ∉ c.cmd.dropWhile isSpaceC := fun hx => hns (hsub _ hx)
    have hi2 : '\n' ∉ c.cmd.dropWhile isSpaceC := fun hx => hnn (hsub _ hx)
    have hE : scanEmit (c.cmd.dropWhile isSpaceC)
        = escAll (c.cmd.dropWhile isSpaceC) := by
      have := scanLoop_escAll _ hi1 hi2 false none []
      simpa [scanEmit] using this
    have hTd : dreAux false (rstripSpec (scanEmit (c.cmd.dropWhile isSpaceC)))
        = true := by
      rw [hE]
      exact dre_rstrip _ (dre_escAll _)
    have hTc : (rstripSpec (scanEmit (c.cmd.dropWhile isSpaceC))).count '$'
        = 2 * c.cmd.count '$' := by
      rw [count_rstrip, hE, count_escAll, count_trimSpace]
    rw [genShellScript_single] at h
    by_cases hemp : rstripSpec (scanEmit (c.cmd.dropWhile isSpaceC)) = []
    · rw [if_pos hemp] at h
      cases h
    · rw [if_neg hemp] at h
      have hb : bufO = rstripSpec (scanEmit (c.cmd.dropWhile isSpaceC))
          ++ (if c.ignore_error then " ; true".toList else []) := by
        have := h.symm
        simp only [Option.some.injEq, Prod.mk.injEq] at this
        exact this.1
      subst hb
      obtain ⟨hpd, hpc⟩ := dre_count_append_nodollar _ _
        (truetail_no_dollar c.ignore_error) hTd
      refine ⟨hpd, ?_⟩
      rw [hpc, hTc]
      simp
  | c1 :: c2 :: rest =>
    have ht : 1 < (c1 :: c2 :: rest).length := by
      simp only [List.length_cons]
      omega
    rw [genShellScript] at h
    cases hg : gssLoop none (c1 :: c2 :: rest).length [] false false
        (c1 :: c2 :: rest) with
    | none => rw [hg] at h; cases h
    | some r =>
      rw [hg] at h
      have hb : bufO = r.1 := by
        have := h.symm
        simp only [Option.map, Option.some.injEq, Prod.mk.injEq] at this
        exact this.1
      subst hb
      have := gss_dollar_multi (c1 :: c2 :: rest).length ht (c1 :: c2 :: rest)
        [] false false r.1 r.2 hcl (by rw [hg]) rfl
      simpa using this

theorem buildCount_nodeRuleLines (goma : Option (List Char)) (commands : List Command)
    (ruleId : Nat) (rl : List NLine) (rn : String) (pl : Bool)
    (h : nodeRuleLines goma commands ruleId = some (rl, rn, pl)) :
    ∀ o, buildCount o rl = 0 := by
  intro o
  rw [nodeRuleLines] at h
  by_cases hc : commands.isEmpty = true
  · rw [if_pos hc] at h
    simp only [Option.some.injEq, Prod.mk.injEq] at h
    rw [← h.1]
    rfl
  · rw [if_neg hc] at h
    cases hg : genShellScript goma commands with
    | none => exact absurd h (by simp [hg])
    | some bp =>
      obtain ⟨buf, pool⟩ := bp
      simp only [hg] at h
      cases hdep : getDepfileFromCommand (buf ++ [' ']) with
      | none => exact absurd h (by simp [hdep])
      | some dep =>
        simp only [hdep] at h
        simp only [Option.some.injEq, Prod.mk.injEq] at h
        rw [← h.1, buildCount, List.countP_append, List.countP_append]
        have h2 : (match dep with
            | none => ([] : List NLine)
            | some d => [NLine.depfile d]).countP (isBuildFor o) = 0 := by
          cases dep <;> rfl
        have h3 : (emitCommandLines buf).countP (isBuildFor o) = 0 := by
          rw [emitCommandLines]
          by_cases hl : buf.length > 100 * 1000
          · rw [if_pos hl]; rfl
          · rw [if_neg hl]; rfl
        rw [h2, h3]
        rfl

theorem buildCount_single (x o : String) (rn : String) (dd oodd : List String) :
    buildCount x [NLine.build o rn dd oodd] = if o = x then 1 else 0 := by
  by_cases h : o = x
  · simp [buildCount, List.countP_cons, isBuildFor, h]
  · simp [buildCount, List.countP_cons, isBuildFor, h]

theorem buildCount_pool (x : String) (pl : Bool) :
    buildCount x (if pl then [NLine.pool] else []) = 0 := by
  by_cases h : pl = true
  · rw [if_pos h]; rfl
  · rw [if_neg h]; rfl

theorem dedupInv_grow (st : GenState) (o : String) (newId : Nat)
    (hInv : DedupInv st) :
    DedupInv ⟨o :: st.done, newId, st.lines⟩ := by
  intro x
  have hx := hInv x
  show buildCount x st.lines ≤ _
  by_cases hxe : x ∈ st.done
  · rw [if_pos hxe] at hx
    rw [if_pos (show x ∈ o :: st.done from List.mem_cons_of_mem _ hxe)]
    exact hx
  · rw [if_neg hxe] at hx
    by_cases hxn : x ∈ o :: st.done
    · rw [if_pos hxn]; omega
    · rw [if_neg hxn]; exact hx

theorem dedupInv_step (st : GenState) (o : String) (hdone : o ∉ st.done)
    (rl poolL : List NLine) (hrl : ∀ x, buildCount x rl = 0)
    (hpool : ∀ x, buildCount x poolL = 0)
    (rn : String) (dd oodd : List String) (newId : Nat)
    (hInv : DedupInv st) :
    DedupInv ⟨o :: st.done, newId,
      st.lines ++ rl ++ [NLine.build o rn dd oodd] ++ poolL⟩ := by
  intro x
  have hx := hInv x
  show buildCount x (st.lines ++ rl ++ [NLine.build o rn dd oodd] ++ poolL) ≤ _
  have hsplit : buildCount x (st.lines ++ rl ++ [NLine.build o rn dd oodd] ++ poolL)
      = buildCount x st.lines + buildCount x rl
        + buildCount x [NLine.build o rn dd oodd] + buildCount x poolL := by
    simp only [buildCount, List.countP_append]
  rw [hsplit, hrl, hpool, buildCount_single]
  by_cases hxo : o = x
  · subst hxo
    rw [if_pos rfl, if_pos (List.mem_cons_self o st.done)]
    rw [if_neg hdone] at hx
    omega
  · rw [if_neg hxo]
    by_cases hxe : x ∈ st.done
    · rw [if_pos hxe] at hx
      rw [if_pos (show x ∈ o :: st.done from List.mem_cons_of_mem _ hxe)]
      omega
    · rw [if_neg hxe] at hx
      have hxn : x ∉ o :: st.done := by
        intro hm
        rcases List.mem_cons.mp hm with hm1 | hm1
        · exact hxo hm1.symm
        · exact hxe hm1
      rw [if_neg hxn]
      omega

theorem emit_inv_main (ev : String → List Command) (goma : Option (List Char)) :
    ∀ (k : Nat),
      (∀ (st : GenState) (n : DepNode), sizeOf n ≤ k → ∀ st2,
        emitNode ev goma st n = some st2 →
        (∀ x, x ∈ st.done → x ∈ st2.done) ∧ (DedupInv st → DedupInv st2)) ∧
      (∀ (st : GenState) (l : List DepNode), sizeOf l ≤ k → ∀ st2,
        emitNodes ev goma st l = some st2 →
        (∀ x, x ∈ st.done → x ∈ st2.done) ∧ (DedupInv st → DedupInv st2)) := by
  intro k
  induction k with
  | zero =>
    constructor
    · intro st n hk
      exfalso
      obtain ⟨o, hc, deps, oo, ph⟩ := n
      simp only [DepNode.mk.sizeOf_spec] at hk
      omega
    · intro st l hk
      exfalso
      cases l with
      | nil =>
        simp only [List.nil.sizeOf_spec] at hk
        omega
      | cons n rest =>
        simp only [List.cons.sizeOf_spec] at hk
        omega
  | succ k ih =>
    constructor
    · intro st n hk st2 h
      obtain ⟨o, hc, deps, oo, ph⟩ := n
      have hsz : sizeOf deps ≤ k ∧ sizeOf oo ≤ k := by
        simp only [DepNode.mk.sizeOf_spec] at hk
        constructor <;> omega
      simp only [emitNode] at h
      by_cases hdone : o ∈ st.done
      · rw [if_pos hdone] at h
        have hst : st = st2 := by simpa using h
        subst hst
        exact ⟨fun x hx => hx, id⟩
      · rw [if_neg hdone] at h
        by_cases hleaf : hc = false ∧ deps.isEmpty = true ∧ oo.isEmpty = true
            ∧ ph = false
        · rw [if_pos hleaf] at h
          have hst : (⟨o :: st.done, st.ruleId, st.lines⟩ : GenState) = st2 := by
            simpa using h
          subst hst
          refine ⟨fun x hx => List.mem_cons_of_mem _ hx, fun hInv => ?_⟩
          exact dedupInv_grow st o st.ruleId hInv
        · rw [if_neg hleaf] at h
          split at h
          · exact Option.noConfusion h
          · rename_i rl rn pl hnr
            split at h
            · exact Option.noConfusion h
            · rename_i st3 he1
              obtain ⟨m1, i1⟩ := (ih).2 _ deps hsz.1 st3 he1
              obtain ⟨m2, i2⟩ := (ih).2 st3 oo hsz.2 st2 h
              constructor
              · intro x hx
                exact m2 x (m1 x (List.mem_cons_of_mem _ hx))
              · intro hInv
                apply i2
                apply i1
                exact dedupInv_step st o hdone rl _
                  (buildCount_nodeRuleLines goma (ev o) st.ruleId rl rn pl hnr)
                  (fun x => buildCount_pool x pl) rn _ _ _ hInv
    · intro st l hk st2 h
      cases l with
      | nil =>
        have hst : st = st2 := by simpa [emitNodes] using h
        subst hst
        exact ⟨fun x hx => hx, id⟩
      | cons n rest =>
        have hsz : sizeOf n ≤ k ∧ sizeOf rest ≤ k := by
          simp only [List.cons.sizeOf_spec] at hk
          constructor <;> omega
        simp only [emitNodes] at h
        cases he1 : emitNode ev goma st n with
        | none => rw [he1] at h; cases h
        | some stM =>
          rw [he1] at h
          obtain ⟨m1, i1⟩ := (ih).1 st n hsz.1 stM he1
          obtain ⟨m2, i2⟩ := (ih).2 stM rest hsz.2 st2 h
          exact ⟨fun x hx => m2 x (m1 x hx), fun hInv => i2 (i1 hInv)⟩

theorem emitNodes_dedup (ev : String → List Command) (goma : Option (List Char))
    (roots : List DepNode) (st2 : GenState)
    (h : emitNodes ev goma ⟨[], 0, []⟩ roots = some st2) :
    ∀ o, buildCount o st2.lines ≤ 1 := by
  intro o
  have hInit : DedupInv ⟨[], 0, []⟩ := by
    intro x
    show buildCount x [] ≤ _
    have : buildCount x [] = 0 := rfl
    omega
  obtain ⟨_, hi⟩ := (emit_inv_main ev goma (sizeOf roots)).2 ⟨[], 0, []⟩ roots
    (Nat.le_refl _) st2 h
  have := hi hInit o
  by_cases hm : o ∈ st2.done
  · rw [if_pos hm] at this
    exact this
  · rw [if_neg hm] at this
    omega

theorem findFlagWithArg_absent (cmd flag : List Char)
    (h : findSub cmd flag = none) : findFlagWithArg cmd flag = some [] := by
  cases flag with
  | nil => rfl
  | cons f fs =>
    rw [findFlagWithArg, h]

theorem findFlag_present_ne_nil' (cmd flag : List Char) (hne : flag ≠ [])
    (hocc : findSub cmd flag ≠ none) :
    ∀ mf, findFlagWithArg cmd flag = some mf → mf ≠ [] := by
  cases flag with
  | nil => exact absurd rfl hne
  | cons f fs => exact findFlag_present_ne_nil cmd f fs hocc

/-- C1 (counterexample): for the scenario of the claim — two commands, the
first with `ignore_error = true`, the second without — `GenShellScript`
does not produce `(<cmd1> ; true ; <cmd2>)`: it wraps each command in its
own subshell, joins them with ` ; `, and appends no ` ; true` (that is
reserved for the last command).  With commands `foo` and `bar` the output
is `(foo) ; (bar)`, not `(foo ; true ; bar)`. -/
theorem C1_counterexample :
    genShellScript none [⟨"foo".toList, true⟩, ⟨"bar".toList, false⟩]
      = some ("(foo) ; (bar)".toList, false)
    ∧ "(foo) ; (bar)".toList ≠ "(foo ; true ; bar)".toList := by
  constructor
  · decide
  · decide

/-- C1 (amended): for a node with exactly two commands, the first with
`ignore_error = true` and the second without, whose recipes do not start
with `(` after leading-whitespace removal, the composer produces
`(<t1>) ; (<t2>)`: each translated command in its own subshell, joined by
` ; ` chosen from the first (previous) command's `ignore_error` flag, and
no ` ; true` is appended because only the last command's flag triggers it. -/
theorem C1_amended (s1 s2 : List Char)
    (h1 : ¬ (s1.dropWhile isSpaceC).head? = some '(')
    (h2 : ¬ (s2.dropWhile isSpaceC).head? = some '(') :
    genShellScript none [⟨s1, true⟩, ⟨s2, false⟩]
      = some (('(' :: translatedPiece (s1.dropWhile isSpaceC))
          ++ ") ; (".toList ++ translatedPiece (s2.dropWhile isSpaceC) ++ [')'],
        false) := by
  rw [genShellScript,
    show ([⟨s1, true⟩, ⟨s2, false⟩] : List Command).length = 2 from rfl,
    gssLoop_cons_sub none 2 (by omega) [] false false ⟨s1, true⟩ [⟨s2, false⟩] h1 rfl,
    gssLoop_cons_sub none 2 (by omega) _ _ false ⟨s2, false⟩ [] h2 rfl]
  simp only [gssLoop]
  simp

/-- C1 (witness for the amended theorem at a concrete input). -/
theorem C1_witness :
    genShellScript none [⟨"aa".toList, true⟩, ⟨"bb".toList, false⟩]
      = some (('(' :: translatedPiece ("aa".toList.dropWhile isSpaceC))
          ++ ") ; (".toList ++ translatedPiece ("bb".toList.dropWhile isSpaceC)
          ++ [')'], false) :=
  C1_amended "aa".toList "bb".toList (by decide) (by decide)

/-- C2 (counterexample): the scanner does not always return the argument
following the textually last occurrence of the flag.  In ` -o -o x ` the
two occurrences of ` -o ` overlap on the middle space; after the first
match the re-search starts past that space and finds nothing, so the
scanner returns `-o` while the last occurrence is followed by `x`. -/
theorem C2_counterexample :
    findFlagWithArg " -o -o x ".toList " -o ".toList = some "-o".toList
    ∧ specLastFlagArg " -o -o x ".toList " -o ".toList = "x".toList
    ∧ "-o".toList ≠ "x".toList := by
  refine ⟨by decide, by decide, by decide⟩

/-- C2 (amended): the scanner returns empty when the flag does not occur;
when the flag occurs and the whitespace-trimmed remainder after the first
occurrence contains no further occurrence, it returns that remainder's
prefix up to the first space (failing the `CHECK` when no space follows);
when later occurrences survive the trimming the same step repeats, so the
result follows the last re-found occurrence, which can differ from the
textually last occurrence.  Whenever the flag occurs and a value is
returned, that value is non-empty. -/
theorem C2_amended (cmd : List Char) (f : Char) (fs : List Char) :
    (findSub cmd (f :: fs) = none → findFlagWithArg cmd (f :: fs) = some [])
    ∧ (∀ i, findSub cmd (f :: fs) = some i →
        findSub (trimLeft (cmd.drop (i + (f :: fs).length))) (f :: fs) = none →
        findFlagWithArg cmd (f :: fs) =
          (match findChar ' ' (trimLeft (cmd.drop (i + (f :: fs).length))) with
           | none => none
           | some k => some ((trimLeft (cmd.drop (i + (f :: fs).length))).take k)))
    ∧ (∀ mf, findSub cmd (f :: fs) ≠ none →
        findFlagWithArg cmd (f :: fs) = some mf → mf ≠ []) := by
  refine ⟨?_, ?_, ?_⟩
  · intro h
    rw [findFlagWithArg, h]
  · intro i hi hre
    rw [findFlagWithArg, hi]
    simp only [ffwaLoopN, hre]
  · intro mf hocc h
    exact findFlag_present_ne_nil cmd f fs hocc mf h

/-- C2 (witness for the amended theorem at a concrete input). -/
theorem C2_witness :
    findFlagWithArg "gcc -MF out.d -c a.c ".toList (' ' :: "-MF ".toList)
      = some "out.d".toList := by
  have h := (C2_amended "gcc -MF out.d -c a.c ".toList ' ' "-MF ".toList).2.1
    3 (by decide) (by decide)
  rw [h]
  decide

/-- C3: for every command string ending in a space, the depfile
inferencer returns no depfile when neither ` -MD ` nor ` -MMD ` occurs;
when one of them occurs and ` -MF ` occurs, the depfile is the scanner's
` -MF ` argument; otherwise, when ` -o ` occurs, it is the scanner's
` -o ` argument with its extension stripped and `.d` appended; and when
` -o ` is also absent, no depfile is returned (after logging an error,
a side effect outside this model). -/
theorem C3_thm (cmd : List Char) (hsp : cmd.getLast? = some ' ') :
    ((findSub cmd " -MD ".toList = none ∧ findSub cmd " -MMD ".toList = none) →
      getDepfileFromCommandImpl cmd = some none)
    ∧ ((findSub cmd " -MD ".toList ≠ none ∨ findSub cmd " -MMD ".toList ≠ none) →
        findSub cmd " -MF ".toList ≠ none →
        ∀ mf, findFlagWithArg cmd " -MF ".toList = some mf →
          getDepfileFromCommandImpl cmd = some (some mf))
    ∧ ((findSub cmd " -MD ".toList ≠ none ∨ findSub cmd " -MMD ".toList ≠ none) →
        findSub cmd " -MF ".toList = none →
        findSub cmd " -o ".toList ≠ none →
        ∀ o, findFlagWithArg cmd " -o ".toList = some o →
          getDepfileFromCommandImpl cmd = some (some (stripExt o ++ ".d".toList)))
    ∧ ((findSub cmd " -MD ".toList ≠ none ∨ findSub cmd " -MMD ".toList ≠ none) →
        findSub cmd " -MF ".toList = none →
        findSub cmd " -o ".toList = none →
        getDepfileFromCommandImpl cmd = some none) := by
  refine ⟨?_, ?_, ?_, ?_⟩
  · intro hcond
    rw [getDepfileFromCommandImpl, if_pos hcond]
  · intro hd hocc mf hmf
    have hnc : ¬ (findSub cmd " -MD ".toList = none
        ∧ findSub cmd " -MMD ".toList = none) := by
      rcases hd with h | h
      · exact fun hcon => h hcon.1
      · exact fun hcon => h hcon.2
    have hne : mf ≠ [] := findFlag_present_ne_nil' cmd _ (by decide) hocc mf hmf
    have hie : mf.isEmpty = false := by
      cases mf with
      | nil => exact absurd rfl hne
      | cons a b => rfl
    rw [getDepfileFromCommandImpl, if_neg hnc]
    simp only [hmf, hie, Bool.false_eq_true, if_false]
  · intro hd hmfnone hoocc o ho
    have hnc : ¬ (findSub cmd " -MD ".toList = none
        ∧ findSub cmd " -MMD ".toList = none) := by
      rcases hd with h | h
      · exact fun hcon => h hcon.1
      · exact fun hcon => h hcon.2
    have hne : o ≠ [] := findFlag_present_ne_nil' cmd _ (by decide) hoocc o ho
    have hie : o.isEmpty = false := by
      cases o with
      | nil => exact absurd rfl hne
      | cons a b => rfl
    rw [getDepfileFromCommandImpl, if_neg hnc]
    simp only [findFlagWithArg_absent cmd _ hmfnone, List.isEmpty_nil, if_true,
      ho, hie, Bool.false_eq_true, if_false]
  · intro hd hmfnone honone
    have hnc : ¬ (findSub cmd " -MD ".toList = none
        ∧ findSub cmd " -MMD ".toList = none) := by
      rcases hd with h | h
      · exact fun hcon => h hcon.1
      · exact fun hcon => h hcon.2
    rw [getDepfileFromCommandImpl, if_neg hnc]
    simp only [findFlagWithArg_absent cmd _ hmfnone, List.isEmpty_nil, if_true,
      findFlagWithArg_absent cmd _ honone]

/-- C3 (witness at a concrete input): the spec's simple-compile scenario. -/
theorem C3_witness :
    getDepfileFromCommandImpl "gcc -MD -MF foo.d -c foo.c -o foo.o ".toList
      = some (some "foo.d".toList) :=
  (C3_thm _ (by decide)).2.1 (Or.inl (by decide)) (by decide)
    "foo.d".toList (by decide)

/-- C4: for every command string ending in a space for which the
inferencer computed a candidate depfile, the post-filters apply in order:
a command containing `bin/llvm-rs-cc ` yields no depfile; else if the
candidate with its extension (`.d`) stripped and `.P` appended occurs in
the command, that `.P` path is returned; else if `/` followed by the
candidate's basename without extension followed by `.s` occurs, no
depfile is returned; otherwise the candidate is returned. -/
theorem C4_thm (cmd d0 : List Char) (hsp : cmd.getLast? = some ' ')
    (himpl : getDepfileFromCommandImpl cmd = some (some d0)) :
    (findSub cmd "bin/llvm-rs-cc ".toList ≠ none →
      getDepfileFromCommand cmd = some none)
    ∧ (findSub cmd "bin/llvm-rs-cc ".toList = none →
        findSub cmd (stripExt d0 ++ ".P".toList) ≠ none →
        getDepfileFromCommand cmd = some (some (stripExt d0 ++ ".P".toList)))
    ∧ (findSub cmd "bin/llvm-rs-cc ".toList = none →
        findSub cmd (stripExt d0 ++ ".P".toList) = none →
        findSub cmd ('/' :: (stripExt (basename d0) ++ ".s".toList)) ≠ none →
        getDepfileFromCommand cmd = some none)
    ∧ (findSub cmd "bin/llvm-rs-cc ".toList = none →
        findSub cmd (stripExt d0 ++ ".P".toList) = none →
        findSub cmd ('/' :: (stripExt (basename d0) ++ ".s".toList)) = none →
        getDepfileFromCommand cmd = some (some d0)) := by
  refine ⟨?_, ?_, ?_, ?_⟩
  · intro hl
    have hl' : (findSub cmd "bin/llvm-rs-cc ".toList).isSome = true :=
      Option.ne_none_iff_isSome.mp hl
    simp only [getDepfileFromCommand, if_pos hsp, himpl, hl', if_true]
  · intro hl hp
    have hl' : (findSub cmd "bin/llvm-rs-cc ".toList).isSome = false := by
      rw [hl]; rfl
    have hp' : (findSub cmd (stripExt d0 ++ ".P".toList)).isSome = true :=
      Option.ne_none_iff_isSome.mp hp
    simp only [getDepfileFromCommand, if_pos hsp, himpl, hl', Bool.false_eq_true,
      if_false, hp', if_true]
  · intro hl hp hs
    have hl' : (findSub cmd "bin/llvm-rs-cc ".toList).isSome = false := by
      rw [hl]; rfl
    have hp' : (findSub cmd (stripExt d0 ++ ".P".toList)).isSome = false := by
      rw [hp]; rfl
    have hs' : (findSub cmd ('/' :: (stripExt (basename d0) ++ ".s".toList))).isSome
        = true := Option.ne_none_iff_isSome.mp hs
    simp only [getDepfileFromCommand, if_pos hsp, himpl, hl', hp',
      Bool.false_eq_true, if_false, hs', if_true]
  · intro hl hp hs
    have hl' : (findSub cmd "bin/llvm-rs-cc ".toList).isSome = false := by
      rw [hl]; rfl
    have hp' : (findSub cmd (stripExt d0 ++ ".P".toList)).isSome = false := by
      rw [hp]; rfl
    have hs' : (findSub cmd ('/' :: (stripExt (basename d0) ++ ".s".toList))).isSome
        = false := by
      rw [hs]; rfl
    simp only [getDepfileFromCommand, if_pos hsp, himpl, hl', hp', hs',
      Bool.false_eq_true, if_false]

/-- C4 (witness at a concrete input): the assembly exception — the
candidate `sub/foo.d` is dropped because `/foo.s` occurs in the command. -/
theorem C4_witness :
    getDepfileFromCommand "gcc -MD -c sub/foo.s -o sub/foo.o ".toList
      = some none :=
  (C4_thm "gcc -MD -c sub/foo.s -o sub/foo.o ".toList "sub/foo.d".toList
    (by decide) (by decide)).2.2.1 (by decide) (by decide) (by decide)

/-- C5 (counterexample): for the recipe line `;` — which contains none of
`#`, `$`, tab, newline and has no leading whitespace — the claim's
equation fails: the trailing-strip loop empties the buffer and then reads
its last character out of range (`none` in the model), so the translator
does not return the input with trailing `;` stripped. -/
theorem C5_counterexample :
    translateCommand [] [';'] = none
    ∧ ¬ (translateCommand [] [';'] = some (rstripSpec [';'], rstripSpec [';'])) := by
  refine ⟨by decide, by decide⟩

/-- C5 (amended): for every recipe line with none of `#`, `$`, tab,
newline, no leading whitespace, and at least one character that is
neither whitespace nor `;`, the translator's output equals the input
with all trailing whitespace and `;` removed. -/
theorem C5_amended (inp : List Char) (h1 : '#' ∉ inp) (h2 : '$' ∉ inp)
    (h3 : '\t' ∉ inp) (h4 : '\n' ∉ inp)
    (h5 : inp.takeWhile isSpaceC = [])
    (h6 : ∃ c, c ∈ inp ∧ strippable c = false) :
    translateCommand [] inp = some (rstripSpec inp, rstripSpec inp) := by
  have hscan : scanLoop false none [] inp = inp := by
    rw [scanLoop_escAll inp h1 h4 false none [], escAll_id inp h2 h3]
    rfl
  have hne : rstripSpec inp ≠ [] := by
    intro hnil
    obtain ⟨c, hc, hcs⟩ := h6
    have hdw := (rstripSpec_eq_nil_iff inp).1 hnil
    have := List.dropWhile_eq_nil_iff.mp hdw c (List.mem_reverse.mpr hc)
    rw [this] at hcs
    cases hcs
  rw [translateCommand, hscan, stripLoop_eq, if_neg hne]
  simp

/-- C5 (witness for the amended theorem at a concrete input). -/
theorem C5_witness :
    translateCommand [] "ab ;".toList
      = some (rstripSpec "ab ;".toList, rstripSpec "ab ;".toList) :=
  C5_amended "ab ;".toList (by decide) (by decide) (by decide) (by decide)
    (by decide) (by decide)

/-- C6 (counterexample): both halves of the claim fail on the code.  The
recipe `a #$` has a `$` after an unquoted `#`, the scan stops at the
comment, and the composed command `a` contains no `$$` for it.  The
recipe `\$<newline>` triggers the stale `prev_backslash` newline rewrite,
which overwrites the second `$` of the emitted `$$` with a space,
leaving the lone-`$` command `\$`. -/
theorem C6_counterexample :
    genShellScript none [⟨"a #$".toList, false⟩] = some ("a".toList, false)
    ∧ ("a #$".toList.count '$' = 1 ∧ "a".toList.count '$' = 0)
    ∧ genShellScript none [⟨"\\$\n".toList, false⟩] = some (['\\', '$'], false)
    ∧ dreAux false ['\\', '$'] = false := by
  refine ⟨by decide, ⟨by decide, by decide⟩, by decide, by decide⟩

/-- C6 (amended): for every command list whose recipes contain no `#` and
no newline (with the compiler wrapper disabled), the composed command
contains no `$` outside a `$$` pair (every maximal `$` run has even
length), and its `$` count is exactly twice the total `$` count of the
source recipes — every source `$` appears as `$$`. -/
theorem C6_amended (cmds : List Command) (bufO : List Char) (pool : Bool)
    (hcl : ∀ c ∈ cmds, '#' ∉ c.cmd ∧ '\n' ∉ c.cmd)
    (h : genShellScript none cmds = some (bufO, pool)) :
    dreAux false bufO = true ∧
      bufO.count '$' = 2 * (cmds.map (fun c => c.cmd.count '$')).sum :=
  genShellScript_dollar cmds bufO pool hcl h

/-- C6 (witness for the amended theorem at a concrete input). -/
theorem C6_witness :
    dreAux false "echo $$x".toList = true ∧
      "echo $$x".toList.count '$'
        = 2 * (([⟨"echo $x".toList, false⟩] : List Command).map
            (fun c => c.cmd.count '$')).sum :=
  C6_amended [⟨"echo $x".toList, false⟩] "echo $$x".toList false
    (by decide) (by decide)

/-- C7: the emitted rule stanza contains the response-file lines
(`rspfile = $out.rsp`, `rspfile_content = <command>`,
`command = sh $out.rsp`) if and only if the composed command is longer
than 100 000 bytes; otherwise it contains exactly `command = <command>`
and no response-file attributes. -/
theorem C7_thm (buf : List Char) :
    ((NLine.rspfile ∈ emitCommandLines buf) ↔ buf.length > 100 * 1000)
    ∧ (buf.length > 100 * 1000 →
        emitCommandLines buf
          = [NLine.rspfile, NLine.rspfileContent buf, NLine.commandSh])
    ∧ (¬ buf.length > 100 * 1000 →
        emitCommandLines buf = [NLine.command buf]) := by
  refine ⟨⟨?_, ?_⟩, ?_, ?_⟩
  · intro hm
    by_contra hno
    rw [emitCommandLines, if_neg hno] at hm
    simp at hm
  · intro hgt
    rw [emitCommandLines, if_pos hgt]
    simp
  · intro hgt
    rw [emitCommandLines, if_pos hgt]
  · intro hle
    rw [emitCommandLines, if_neg hle]

/-- C7 (witness at a concrete input). -/
theorem C7_witness : emitCommandLines ['a'] = [NLine.command ['a']] :=
  (C7_thm ['a']).2.2 (by decide)

/-- C8: the node emitter returns immediately (emitting nothing) when the
node's output is already in the `done` set, and for every run of the
emitter from the initial state over any root list — including DAGs where
a node is reachable along several paths — each output has at most one
`build` stanza in the produced manifest. -/
theorem C8_thm :
    (∀ (ev : String → List Command) (goma : Option (List Char)) (st : GenState)
        (n : DepNode), n.output ∈ st.done → emitNode ev goma st n = some st)
    ∧ (∀ (ev : String → List Command) (goma : Option (List Char))
        (roots : List DepNode) (stO : GenState),
        emitNodes ev goma ⟨[], 0, []⟩ roots = some stO →
        ∀ o, buildCount o stO.lines ≤ 1) := by
  constructor
  · intro ev goma st n hmem
    obtain ⟨o, hc, deps, oo, ph⟩ := n
    have hm : o ∈ st.done := hmem
    simp only [emitNode, if_pos hm]
  · intro ev goma roots stO h o
    exact emitNodes_dedup ev goma roots stO h o

/-- C8 (witness at concrete inputs). -/
theorem C8_witness :
    emitNode (fun _ => []) none ⟨["a"], 0, []⟩ (DepNode.mk "a" false [] [] false)
      = some ⟨["a"], 0, []⟩
    ∧ buildCount "a" (⟨[], 0, []⟩ : GenState).lines ≤ 1 :=
  ⟨C8_thm.1 (fun _ => []) none ⟨["a"], 0, []⟩ (DepNode.mk "a" false [] [] false)
      (by simp [DepNode.output]),
   C8_thm.2 (fun _ => []) none [] ⟨[], 0, []⟩ (by simp [emitNodes]) "a"⟩

/-- C10 (counterexample): in multi-command composition the strip loop does
not remove bytes appended before the recorded start offset — the claim's
second half.  For the commands `x` and `;` (the second translating to
only a semicolon) the separator ` && ` and the opening parenthesis stay
intact and the empty translation becomes `true`: the composed command is
`(x) && (true)`. -/
theorem C10_counterexample :
    genShellScript none [⟨['x'], false⟩, ⟨[';'], false⟩]
      = some ("(x) && (true)".toList, false) := by
  decide

/-- C10 (amended): the trailing-strip phase escapes the current
translation only through the empty-buffer out-of-range read: a
single-command node whose recipe translates to only whitespace or
semicolons makes the strip loop read the last character of an empty
buffer (undefined behaviour, `none` in the model); in multi-command
composition the appended or leading `(` always stops the strip loop, so
composition never fails and bytes before the start offset are never
removed. -/
theorem C10_amended :
    (genShellScript none [⟨[';'], false⟩] = none)
    ∧ (∀ (goma : Option (List Char)) (cmds : List Command),
        2 ≤ cmds.length → genShellScript goma cmds ≠ none) := by
  constructor
  · decide
  · intro goma cmds h2
    exact genShellScript_multi_ne_none goma cmds h2

/-- C10 (witness for the amended theorem at a concrete input). -/
theorem C10_witness :
    genShellScript none [⟨['a'], false⟩, ⟨['b'], false⟩] ≠ none :=
  C10_amended.2 none [⟨['a'], false⟩, ⟨['b'], false⟩] (by decide)

end Kati
